import Mathlib

/-!
Shallow embedding of the transaction core of the repository
(src/src/transaction.cpp), together with theorems settling the claims of
the specification against it.

The record types (`output_point`, `transaction_input_type`, ...) and the
protocol constants (`null_hash`, `locktime_threshold`) are declared in
headers that are not part of src/; they are modelled from the spec's data
model section.  All functions below are translated from
src/src/transaction.cpp.  Machine integers are modelled as `Nat` with an
explicit `% 2 ^ w` wherever the C++ performs a narrowing conversion or can
wrap.
-/

namespace Libbitcoin

/-- Modelled from the spec: a digest is a fixed-width 32-byte string
(`hash_digest` in types.hpp, which is not in src); bytes are natural
numbers. -/
abbrev hash_digest := List Nat

/-- Modelled from the spec: digest width in bytes (types.hpp not in src). -/
def hash_digest_size : Nat := 32

/-- Modelled from the spec: the designated all-zero null digest
(constants.hpp not in src). -/
def null_hash : hash_digest := List.replicate 32 0

/-- Modelled from the spec: the height/time discriminator for locktime,
conventionally 500,000,000 (constants.hpp not in src). -/
def locktime_threshold : Nat := 500000000

/-- Maximum value of a 32-bit unsigned integer. -/
def uint32_max : Nat := 2 ^ 32 - 1

/-- Modelled from the spec: an OutputPoint identifies an output of a
transaction by hash and 32-bit index (types.hpp not in src). -/
structure output_point where
  hash : hash_digest
  index : Nat
deriving DecidableEq, Inhabited

/-- Modelled from the spec: a transaction input with its previous output
reference, opaque unlocking script bytes and 32-bit sequence. -/
structure transaction_input_type where
  previous_output : output_point
  script : List Nat
  sequence : Nat
deriving DecidableEq, Inhabited

/-- Modelled from the spec: a transaction output with 64-bit value and
opaque locking script bytes. -/
structure transaction_output_type where
  value : Nat
  script : List Nat
deriving DecidableEq, Inhabited

/-- Modelled from the spec: a transaction record. -/
structure transaction_type where
  version : Nat
  locktime : Nat
  inputs : List transaction_input_type
  outputs : List transaction_output_type
deriving DecidableEq, Inhabited

/-- transaction.cpp, `previous_output_is_null`: the index equals the
maximum 32-bit value and the hash is the null hash. -/
def previous_output_is_null (previous_output : output_point) : Bool :=
  previous_output.index == uint32_max && previous_output.hash == null_hash

/-- transaction.cpp, `is_coinbase`: exactly one input whose previous
output is null.  The C++ short-circuits, so `inputs[0]` is only read when
the size is 1; `headD` matches that access under the guard. -/
def is_coinbase (tx : transaction_type) : Bool :=
  tx.inputs.length == 1 &&
    previous_output_is_null (tx.inputs.headD default).previous_output

/-- transaction.cpp, `total_output_value`: a `uint64_t` accumulator summed
over the outputs; each C++ addition wraps modulo `2 ^ 64`. -/
def total_output_value (tx : transaction_type) : Nat :=
  tx.outputs.foldl (fun total output => (total + output.value) % 2 ^ 64) 0

/-- The mathematical (unwrapped) sum of a transaction's output values. -/
def output_values_sum (tx : transaction_type) : Nat :=
  (tx.outputs.map (fun output => output.value)).sum

/-- transaction.cpp, `is_final` (input overload): the sequence equals the
maximum 32-bit value. -/
def is_final_input (tx_input : transaction_input_type) : Bool :=
  tx_input.sequence == uint32_max

/-- transaction.cpp, `is_final` (transaction overload).  `block_height`
has type `size_t` (64-bit) in the C++ but is assigned to the `uint32_t`
local `max_locktime`, a narrowing conversion modelled by `% 2 ^ 32`;
`block_time` is already `uint32_t` and is copied unchanged. -/
def is_final (tx : transaction_type) (block_height : Nat)
    (block_time : Nat) : Bool :=
  if tx.locktime = 0 then true
  else
    let max_locktime :=
      if tx.locktime < locktime_threshold then block_height % 2 ^ 32
      else block_time
    if tx.locktime < max_locktime then true
    else tx.inputs.all is_final_input

/-- transaction.cpp, inner pairing of `build_merkle_tree`: adjacent
digests are concatenated and hashed.  The serializer's `write_hash` and
`generate_sha256_hash` are not in src; modelled from the spec, the pair's
raw digest bytes are concatenated first-then-second and fed to the opaque
hash primitive `sha`. -/
def hashPairs (sha : List Nat → hash_digest) :
    List hash_digest → List hash_digest
  | a :: b :: rest => sha (a ++ b) :: hashPairs sha rest
  | _ => []

/-- transaction.cpp, odd-count duplication inside the merkle loop: when
the level has an odd count the last element is pushed again. -/
def padEven (merkle : List hash_digest) : List hash_digest :=
  if merkle.length % 2 ≠ 0 then merkle ++ [merkle.getLastD []] else merkle

/-- The `while (merkle.size() > 1)` loop of `build_merkle_tree`,
fuel-bounded.  Each iteration at least halves the level, so a fuel equal
to the initial length always suffices (`merkleLoopFuel_extra` below shows
extra fuel is irrelevant). -/
def merkleLoopFuel (sha : List Nat → hash_digest) :
    Nat → List hash_digest → List hash_digest
  | 0, merkle => merkle
  | fuel + 1, merkle =>
    if 1 < merkle.length then
      merkleLoopFuel sha fuel (hashPairs sha (padEven merkle))
    else merkle

/-- The merkle loop run with sufficient fuel. -/
def merkleLoop (sha : List Nat → hash_digest) (merkle : List hash_digest) :
    List hash_digest :=
  merkleLoopFuel sha merkle.length merkle

/-- transaction.cpp, `build_merkle_tree`.  The C++ receives the hash list
by mutable reference and overwrites it level by level; the embedding
returns the pair of the root and the final state of that referenced
list. -/
def build_merkle_tree (sha : List Nat → hash_digest)
    (merkle : List hash_digest) : hash_digest × List hash_digest :=
  if merkle.isEmpty then (null_hash, merkle)
  else if merkle.length = 1 then (merkle.headD null_hash, merkle)
  else
    let final := merkleLoop sha merkle
    (final.headD null_hash, final)

/-- Modelled from the spec: an unspent-output candidate, a point plus a
64-bit value (types.hpp not in src). -/
structure output_info_type where
  point : output_point
  value : Nat
deriving DecidableEq, Inhabited

/-- Modelled from the spec: a selection result; the default-constructed
value has empty points and zero change. -/
structure select_outputs_result where
  points : List output_point
  change : Nat
deriving DecidableEq, Inhabited

/-- Modelled from the spec: the selection-strategy enumeration; only the
greedy variant is specified (transaction.hpp not in src). -/
inductive select_outputs_algorithm where
  | greedy
deriving DecidableEq

/-- The descending-by-value ordering used by the `std::sort` call in
`select_outputs` (comparator `info_a.value > info_b.value`). -/
def by_value_desc (a b : output_info_type) : Prop := b.value ≤ a.value

instance : DecidableRel by_value_desc :=
  fun a b => inferInstanceAs (Decidable (b.value ≤ a.value))

instance : IsTotal output_info_type by_value_desc :=
  ⟨fun a b => Nat.le_total b.value a.value⟩

instance : IsTrans output_info_type by_value_desc :=
  ⟨fun _ _ _ hab hbc => Nat.le_trans hbc hab⟩

/-- transaction.cpp, the `std::min_element` call over the
greater-or-equal partition: the first element of least value, `none` on
an empty range. -/
def min_element : List output_info_type → Option output_info_type
  | [] => none
  | o :: rest =>
    match min_element rest with
    | none => some o
    | some m => if m.value < o.value then some m else some o

/-- The mathematical (unwrapped) sum of candidate values. -/
def values_sum (l : List output_info_type) : Nat :=
  (l.map (fun o => o.value)).sum

/-- transaction.cpp, the accumulation loop of `select_outputs` over the
sorted lesser partition: points are appended, the `uint64_t` accumulator
wraps modulo `2 ^ 64`, and the loop returns as soon as the accumulator
reaches `min_value`; exhaustion yields the default (empty) result. -/
def select_outputs_loop (min_value : Nat) :
    Nat → List output_point → List output_info_type →
      select_outputs_result
  | _, _, [] => ⟨[], 0⟩
  | accum, points, o :: rest =>
    let points2 := points ++ [o.point]
    let accum2 := (accum + o.value) % 2 ^ 64
    if min_value ≤ accum2 then ⟨points2, accum2 - min_value⟩
    else select_outputs_loop min_value accum2 points2 rest

/-- transaction.cpp, `select_outputs` body after the assertion: fail on
an empty list; stably partition into lesser (< `min_value`) and
greater-or-equal; if a greater exists take the minimum one; otherwise
sort the lessers descending and accumulate.  `std::partition` and
`std::sort` leave the order of ties unspecified; the embedding
determinizes them as the stable filter and insertion sort with the same
predicates. -/
def select_outputs_greedy (unspent : List output_info_type)
    (min_value : Nat) : select_outputs_result :=
  if unspent.isEmpty then ⟨[], 0⟩
  else
    let lesser := unspent.filter (fun o => decide (o.value < min_value))
    let greater :=
      unspent.filter (fun o => ! decide (o.value < min_value))
    match min_element greater with
    | some m => ⟨[m.point], m.value - min_value⟩
    | none =>
      select_outputs_loop min_value 0 []
        (List.insertionSort by_value_desc lesser)

/-- transaction.cpp, `select_outputs`: the `BITCOIN_ASSERT` on the
algorithm argument is modelled as `none` on the non-greedy branch (which
is unreachable, the enumeration having a single variant). -/
def select_outputs (unspent : List output_info_type) (min_value : Nat)
    (alg : select_outputs_algorithm) : Option select_outputs_result :=
  if alg = select_outputs_algorithm.greedy then
    some (select_outputs_greedy unspent min_value)
  else none

/-- C++ `select_outputs` takes its candidate list by value, so the
caller-visible list after the call is the unchanged argument; this pairs
the return value with that caller-visible list. -/
def select_outputs_call (unspent : List output_info_type)
    (min_value : Nat) (alg : select_outputs_algorithm) :
    Option select_outputs_result × List output_info_type :=
  (select_outputs unspent min_value alg, unspent)

/-- Claim C9: `is_coinbase tx` is true exactly when `tx` has one single
input whose previous output reference is the null OutputPoint (index the
maximum 32-bit value, hash all-zero); it is false for zero or several
inputs and for a single non-null reference. -/
theorem is_coinbase_iff_c9 (tx : transaction_type) :
    is_coinbase tx = true ↔
      ∃ i, tx.inputs = [i] ∧ i.previous_output.index = uint32_max ∧
        i.previous_output.hash = null_hash := by
  unfold is_coinbase previous_output_is_null
  constructor
  · intro h
    rw [Bool.and_eq_true, beq_iff_eq, Bool.and_eq_true, beq_iff_eq,
      beq_iff_eq] at h
    obtain ⟨hlen, hidx, hhash⟩ := h
    match htx : tx.inputs with
    | [i] =>
      refine ⟨i, rfl, ?_, ?_⟩ <;> rw [htx] at hidx hhash <;> simpa using
        (by first | exact hidx | exact hhash)
    | [] => rw [htx] at hlen; simp at hlen
    | a :: b :: rest => rw [htx] at hlen; simp at hlen
  · rintro ⟨i, hinputs, hidx, hhash⟩
    rw [hinputs]
    simp [hidx, hhash]

theorem total_output_value_foldl (l : List transaction_output_type)
    (a : Nat) :
    l.foldl (fun total output => (total + output.value) % 2 ^ 64)
        (a % 2 ^ 64) =
      (a + (l.map (fun output => output.value)).sum) % 2 ^ 64 := by
  induction l generalizing a with
  | nil => simp
  | cons o rest ih =>
    simp only [List.foldl_cons, List.map_cons, List.sum_cons]
    rw [Nat.mod_add_mod, ih (a + o.value), Nat.add_assoc]

/-- Claim C1 (counterexample): a transaction with two outputs of value
`2 ^ 63` has a mathematical output sum of `2 ^ 64`, yet
`total_output_value` returns the wrapped value 0 and signals no error.  -/
theorem total_output_value_overflow_cex :
    total_output_value
        ⟨1, 0, [], [⟨2 ^ 63, []⟩, ⟨2 ^ 63, []⟩]⟩ = 0 ∧
      output_values_sum
        ⟨1, 0, [], [⟨2 ^ 63, []⟩, ⟨2 ^ 63, []⟩]⟩ = 2 ^ 64 ∧
      (0 : Nat) ≠ 2 ^ 64 := by
  refine ⟨?_, ?_, ?_⟩ <;> decide

/-- Claim C1 (amended): `total_output_value` returns the sum of the
output values reduced modulo `2 ^ 64`; on overflow the value silently
wraps and no error is raised. -/
theorem total_output_value_mod_c1 (tx : transaction_type) :
    total_output_value tx = output_values_sum tx % 2 ^ 64 := by
  unfold total_output_value output_values_sum
  have h := total_output_value_foldl tx.outputs 0
  simpa using h

/-- Claim C2 (counterexample): with locktime 1 (a height lock, below the
threshold), reference height `2 ^ 32` and reference time 0, the claim
demands finality since `1 < 2 ^ 32`; but the code narrows the height to
`uint32_t`, giving 0, and the sole input has sequence 0, so `is_final`
returns false. -/
theorem is_final_height_truncation_cex :
    is_final ⟨1, 1, [⟨⟨List.replicate 32 0, 0⟩, [], 0⟩], []⟩
        (2 ^ 32) 0 = false ∧
      (1 : Nat) ≠ 0 ∧ (1 : Nat) < locktime_threshold ∧
      (1 : Nat) < 2 ^ 32 := by
  refine ⟨?_, ?_, ?_, ?_⟩ <;> decide

/-- Claim C2 (amended): for a nonzero locktime below the height/time
threshold, if the locktime is strictly less than the reference height
reduced modulo `2 ^ 32` (the `size_t` height is narrowed to the
`uint32_t` local before the comparison), then `is_final` returns true
regardless of the inputs' sequence values. -/
theorem is_final_truncated_height_elapsed_c2 (tx : transaction_type)
    (block_height block_time : Nat) (h0 : tx.locktime ≠ 0)
    (hlt : tx.locktime < locktime_threshold)
    (hh : tx.locktime < block_height % 2 ^ 32) :
    is_final tx block_height block_time = true := by
  simp [is_final, h0, hlt]
  exact Or.inl (by simpa using hh)

/-- Claim C2 (witness): locktime 5, reference height 10, reference time 0
with a non-final input: the amended theorem applies and the transaction is
final. -/
theorem is_final_truncated_height_elapsed_c2_witness :
    is_final ⟨1, 5, [⟨⟨List.replicate 32 0, 0⟩, [], 0⟩], []⟩ 10 0 =
      true :=
  is_final_truncated_height_elapsed_c2
    ⟨1, 5, [⟨⟨List.replicate 32 0, 0⟩, [], 0⟩], []⟩ 10 0
    (by decide) (by decide) (by decide)

/-- Claim C3: for a nonzero 32-bit locktime whose absolute lock has not
elapsed (the locktime is not strictly below the reference height when it
is a height lock, and not strictly below the reference time when it is a
time lock), `is_final` is true exactly when every input has the maximum
32-bit sequence value. -/
theorem is_final_unelapsed_iff_sequences_c3 (tx : transaction_type)
    (block_height block_time : Nat) (h0 : tx.locktime ≠ 0)
    (hw : tx.locktime < 2 ^ 32)
    (hh : tx.locktime < locktime_threshold → block_height ≤ tx.locktime)
    (ht : locktime_threshold ≤ tx.locktime → block_time ≤ tx.locktime) :
    is_final tx block_height block_time = true ↔
      ∀ i ∈ tx.inputs, i.sequence = uint32_max := by
  by_cases hlt : tx.locktime < locktime_threshold
  · have hhle : block_height ≤ tx.locktime := hh hlt
    have hmod : block_height % 4294967296 = block_height :=
      Nat.mod_eq_of_lt (lt_of_le_of_lt hhle (by simpa using hw))
    have hnlt : ¬ tx.locktime < block_height := Nat.not_lt.mpr hhle
    simp [is_final, h0, hlt, hmod, hnlt, List.all_eq_true,
      is_final_input]
  · have htle : block_time ≤ tx.locktime :=
      ht (Nat.not_lt.mp hlt)
    have hnlt : ¬ tx.locktime < block_time := Nat.not_lt.mpr htle
    simp [is_final, h0, hlt, hnlt, List.all_eq_true, is_final_input]

/-- Claim C3 (witness): a time-locked transaction with locktime equal to
the reference time (lock not elapsed) and a single max-sequence input is
final. -/
theorem is_final_unelapsed_iff_sequences_c3_witness :
    is_final
        ⟨1, 600000000, [⟨⟨List.replicate 32 0, 0⟩, [], 4294967295⟩], []⟩
        0 600000000 = true :=
  (is_final_unelapsed_iff_sequences_c3
      ⟨1, 600000000, [⟨⟨List.replicate 32 0, 0⟩, [], 4294967295⟩], []⟩
      0 600000000 (by decide) (by decide) (by decide) (by decide)).mpr
    (by decide)

theorem hashPairs_length (sha : List Nat → hash_digest) :
    ∀ l : List hash_digest, (hashPairs sha l).length = l.length / 2
  | [] => rfl
  | [_] => by simp [hashPairs]
  | _ :: _ :: rest => by
    simp only [hashPairs, List.length_cons, hashPairs_length sha rest]
    omega

theorem padEven_length (m : List hash_digest) :
    (padEven m).length = m.length + m.length % 2 := by
  unfold padEven
  split <;> simp <;> omega

theorem merkleLoopFuel_extra (sha : List Nat → hash_digest) :
    ∀ (fuel : Nat) (m : List hash_digest), m.length ≤ fuel + 1 →
      merkleLoopFuel sha (fuel + 1) m = merkleLoopFuel sha fuel m := by
  intro fuel
  induction fuel with
  | zero =>
    intro m hm
    have h1 : ¬ 1 < m.length := by omega
    simp [merkleLoopFuel, h1]
  | succ f ih =>
    intro m hm
    by_cases h1 : 1 < m.length
    · have hstep :
          merkleLoopFuel sha (f + 1 + 1) m =
            merkleLoopFuel sha (f + 1) (hashPairs sha (padEven m)) := by
        simp [merkleLoopFuel, h1]
      have hstep2 :
          merkleLoopFuel sha (f + 1) m =
            merkleLoopFuel sha f (hashPairs sha (padEven m)) := by
        simp [merkleLoopFuel, h1]
      rw [hstep, hstep2]
      apply ih
      have hlen : (hashPairs sha (padEven m)).length =
          (m.length + m.length % 2) / 2 := by
        rw [hashPairs_length, padEven_length]
      omega
    · simp [merkleLoopFuel, h1]

theorem merkleLoopFuel_length (sha : List Nat → hash_digest) :
    ∀ (fuel : Nat) (m : List hash_digest), 1 ≤ m.length →
      m.length ≤ fuel + 1 → (merkleLoopFuel sha fuel m).length = 1 := by
  intro fuel
  induction fuel with
  | zero =>
    intro m hm1 hm2
    simp only [merkleLoopFuel]
    omega
  | succ f ih =>
    intro m hm1 hm2
    by_cases h1 : 1 < m.length
    · simp only [merkleLoopFuel, h1, if_true]
      have hlen : (hashPairs sha (padEven m)).length =
          (m.length + m.length % 2) / 2 := by
        rw [hashPairs_length, padEven_length]
      apply ih <;> omega
    · simp only [merkleLoopFuel, h1, if_false]
      omega

theorem merkleLoop_length (sha : List Nat → hash_digest)
    (m : List hash_digest) (h2 : 2 ≤ m.length) :
    (merkleLoop sha m).length = 1 :=
  merkleLoopFuel_length sha m.length m (by omega) (by omega)

theorem eq_singleton_headD {α : Type} (d : α) (l : List α)
    (h : l.length = 1) : l = [l.headD d] := by
  cases l with
  | nil => simp at h
  | cons a rest =>
    cases rest with
    | nil => rfl
    | cons b rest2 => simp at h

/-- Claim C6 (counterexample): the C++ `build_merkle_tree` receives the
hash list by mutable reference; after a call on a two-element list the
caller's list holds the single root, not the original two hashes. -/
theorem build_merkle_tree_mutates_cex_c6 :
    (build_merkle_tree (fun _ => List.replicate 32 0)
        [List.replicate 32 2, List.replicate 32 3]).2 ≠
      [List.replicate 32 2, List.replicate 32 3] := by
  decide

theorem merkleLoopFuel_succ (sha : List Nat → hash_digest) (fuel : Nat)
    (m : List hash_digest) :
    merkleLoopFuel sha (fuel + 1) m =
      if 1 < m.length then
        merkleLoopFuel sha fuel (hashPairs sha (padEven m))
      else m := rfl

theorem build_merkle_tree_ge2 (sha : List Nat → hash_digest)
    (l : List hash_digest) (h2 : 2 ≤ l.length) :
    build_merkle_tree sha l =
      ((merkleLoop sha l).headD null_hash, merkleLoop sha l) := by
  rcases l with _ | ⟨a, rest⟩
  · simp at h2
  rcases rest with _ | ⟨b, rest2⟩
  · simp at h2
  rfl

/-- Claim C6 (amended): `select_outputs` takes its candidate list by
value, so the caller's list is unchanged by the call; `build_merkle_tree`
however mutates its by-reference argument: a list of length at most one
is left unchanged, while a list of two or more hashes is overwritten and
ends as the singleton holding the computed root. -/
theorem merkle_select_frame_c6 (sha : List Nat → hash_digest)
    (l : List hash_digest) (u : List output_info_type) (mv : Nat)
    (alg : select_outputs_algorithm) :
    (select_outputs_call u mv alg).2 = u ∧
      (l.length ≤ 1 → (build_merkle_tree sha l).2 = l) ∧
      (2 ≤ l.length →
        (build_merkle_tree sha l).2 = [(build_merkle_tree sha l).1]) := by
  refine ⟨rfl, ?_, ?_⟩
  · intro h1
    cases l with
    | nil => rfl
    | cons a rest =>
      cases rest with
      | nil => rfl
      | cons b rest2 => simp at h1
  · intro h2
    rw [build_merkle_tree_ge2 sha l h2]
    exact eq_singleton_headD null_hash _ (merkleLoop_length sha l h2)

/-- Claim C6 (witness): on a concrete two-hash list the caller's list
after the call is the singleton root. -/
theorem merkle_select_frame_c6_witness :
    (build_merkle_tree (fun _ => List.replicate 32 0)
        [List.replicate 32 2, List.replicate 32 3]).2 =
      [(build_merkle_tree (fun _ => List.replicate 32 0)
        [List.replicate 32 2, List.replicate 32 3]).1] :=
  (merkle_select_frame_c6 (fun _ => List.replicate 32 0)
      [List.replicate 32 2, List.replicate 32 3] [] 0
      select_outputs_algorithm.greedy).2.2 (by decide)

/-- Claim C7: for an odd-length list of at least three digests, the
merkle root equals the root of the list with its last element appended
once more (the odd-count duplication rule). -/
theorem merkle_root_odd_duplicate_c7 (sha : List Nat → hash_digest)
    (l : List hash_digest) (hodd : l.length % 2 = 1)
    (h3 : 3 ≤ l.length) :
    (build_merkle_tree sha l).1 =
      (build_merkle_tree sha (l ++ [l.getLastD []])).1 := by
  have hlen2 : (l ++ [l.getLastD []]).length = l.length + 1 := by simp
  have hloop :
      merkleLoop sha l = merkleLoop sha (l ++ [l.getLastD []]) := by
    unfold merkleLoop
    have hpadl : padEven l = l ++ [l.getLastD []] := by
      unfold padEven
      rw [if_pos (by omega)]
    have hpadr :
        padEven (l ++ [l.getLastD []]) = l ++ [l.getLastD []] := by
      unfold padEven
      rw [if_neg (by rw [hlen2]; omega)]
    obtain ⟨k, hk⟩ : ∃ k, l.length = k + 1 + 1 := ⟨l.length - 2, by omega⟩
    rw [hlen2, hk]
    rw [merkleLoopFuel_succ sha (k + 1) l,
      if_pos (show 1 < l.length by omega), hpadl]
    rw [merkleLoopFuel_succ sha (k + 1 + 1) (l ++ [l.getLastD []]),
      if_pos (show 1 < (l ++ [l.getLastD []]).length by rw [hlen2]; omega),
      hpadr]
    rw [merkleLoopFuel_extra sha (k + 1)
      (hashPairs sha (l ++ [l.getLastD []]))
      (by rw [hashPairs_length, hlen2]; omega)]
  rw [build_merkle_tree_ge2 sha l (by omega),
    build_merkle_tree_ge2 sha (l ++ [l.getLastD []]) (by rw [hlen2]; omega),
    hloop]

/-- Claim C7 (witness): the merkle root of a concrete three-element list
equals that of the list with its last element duplicated. -/
theorem merkle_root_odd_duplicate_c7_witness :
    (build_merkle_tree (fun _ => List.replicate 32 0)
        [[1], [2], [3]]).1 =
      (build_merkle_tree (fun _ => List.replicate 32 0)
        ([[1], [2], [3]] ++ [[[1], [2], [3]].getLastD []])).1 :=
  merkle_root_odd_duplicate_c7 (fun _ => List.replicate 32 0)
    [[1], [2], [3]] (by decide) (by decide)

/-- Claim C8: the merkle root of the empty list is the null digest, the
root of a singleton is its element unchanged, and the root of a pair is
the hash primitive applied to the concatenation of the two digests,
first then second. -/
theorem merkle_root_base_cases_c8 (sha : List Nat → hash_digest)
    (h h1 h2 : hash_digest) :
    (build_merkle_tree sha []).1 = null_hash ∧
      (build_merkle_tree sha [h]).1 = h ∧
      (build_merkle_tree sha [h1, h2]).1 = sha (h1 ++ h2) := by
  refine ⟨rfl, rfl, ?_⟩
  simp [build_merkle_tree, merkleLoop, merkleLoopFuel, padEven, hashPairs]

/-- Claim C10: the selection strategy enumeration has the greedy variant
only; a non-greedy argument would trip the assertion (modelled as `none`)
before any selection work, and under the greedy precondition the function
always returns a result. -/
theorem select_outputs_algorithm_total_c10
    (u : List output_info_type) (mv : Nat)
    (alg : select_outputs_algorithm) :
    (alg ≠ select_outputs_algorithm.greedy →
        select_outputs u mv alg = none) ∧
      (alg = select_outputs_algorithm.greedy →
        select_outputs u mv alg = some (select_outputs_greedy u mv)) ∧
      (∀ a : select_outputs_algorithm,
        a = select_outputs_algorithm.greedy) := by
  refine ⟨?_, ?_, ?_⟩
  · intro hne
    cases alg
    exact absurd rfl hne
  · intro he
    simp [select_outputs, he]
  · intro a
    cases a
    rfl

/-- Claim C10 (witness): calling with the greedy strategy on a concrete
list returns a result. -/
theorem select_outputs_algorithm_total_c10_witness :
    select_outputs [] 0 select_outputs_algorithm.greedy =
      some (select_outputs_greedy [] 0) :=
  (select_outputs_algorithm_total_c10 [] 0
      select_outputs_algorithm.greedy).2.1 rfl

theorem values_sum_nil : values_sum [] = 0 := rfl

theorem values_sum_cons (o : output_info_type)
    (l : List output_info_type) :
    values_sum (o :: l) = o.value + values_sum l := by
  simp [values_sum]

theorem values_sum_append (l1 l2 : List output_info_type) :
    values_sum (l1 ++ l2) = values_sum l1 + values_sum l2 := by
  simp [values_sum]

theorem values_sum_take_le (l : List output_info_type) (n : Nat) :
    values_sum (l.take n) ≤ values_sum l := by
  conv_rhs => rw [← List.take_append_drop n l]
  rw [values_sum_append]
  exact Nat.le_add_right _ _

theorem values_sum_perm {l1 l2 : List output_info_type}
    (h : List.Perm l1 l2) : values_sum l1 = values_sum l2 := by
  unfold values_sum
  exact (h.map (fun o => o.value)).sum_eq

theorem mem_value_le_values_sum (l : List output_info_type)
    (o : output_info_type) (ho : o ∈ l) : o.value ≤ values_sum l :=
  List.single_le_sum (fun _ _ => Nat.zero_le _) o.value
    (List.mem_map.mpr ⟨o, ho, rfl⟩)

theorem min_element_eq_none :
    ∀ l : List output_info_type, min_element l = none ↔ l = []
  | [] => by simp [min_element]
  | o :: rest => by
    simp only [min_element]
    cases hm : min_element rest with
    | none => simp
    | some m => by_cases h : m.value < o.value <;> simp [h]

theorem min_element_mem :
    ∀ (l : List output_info_type) (m : output_info_type),
      min_element l = some m → m ∈ l
  | [], m => by simp [min_element]
  | o :: rest, m => by
    simp only [min_element]
    cases hm : min_element rest with
    | none =>
      intro h
      simp only [Option.some.injEq] at h
      simp [← h]
    | some m2 =>
      by_cases h : m2.value < o.value <;> intro he <;>
        simp only [h, if_true, if_false, Option.some.injEq] at he
      · have := min_element_mem rest m2 hm
        simp [← he, this]
      · simp [← he]

theorem min_element_le :
    ∀ (l : List output_info_type) (m : output_info_type),
      min_element l = some m → ∀ o ∈ l, m.value ≤ o.value
  | [], m => by simp [min_element]
  | o :: rest, m => by
    simp only [min_element]
    cases hm : min_element rest with
    | none =>
      intro h
      simp only [Option.some.injEq] at h
      have hrest : rest = [] := (min_element_eq_none rest).mp hm
      subst hrest
      intro x hx
      simp only [List.mem_singleton] at hx
      subst hx
      simp [← h]
    | some m2 =>
      have ih := min_element_le rest m2 hm
      by_cases h : m2.value < o.value <;> intro he <;>
        simp only [h, if_true, if_false, Option.some.injEq] at he <;>
        subst he <;> intro x hx <;> rcases List.mem_cons.mp hx with hx | hx
      · subst hx; exact Nat.le_of_lt h
      · exact ih x hx
      · subst hx; exact Nat.le_refl _
      · exact Nat.le_trans (Nat.not_lt.mp h) (ih x hx)

theorem wrap_shift (accum v s : Nat) :
    ((accum + v) % 2 ^ 64 + s) % 2 ^ 64 = (accum + (v + s)) % 2 ^ 64 := by
  rw [Nat.mod_add_mod, Nat.add_assoc]

theorem select_outputs_loop_nohit (mv : Nat) :
    ∀ (l : List output_info_type) (accum : Nat)
      (pts : List output_point),
      (∀ k < l.length,
        (accum + values_sum (l.take (k + 1))) % 2 ^ 64 < mv) →
      select_outputs_loop mv accum pts l = ⟨[], 0⟩
  | [], _, _ => fun _ => rfl
  | o :: rest, accum, pts => by
    intro h
    have h0 : (accum + o.value) % 2 ^ 64 < mv := by
      have := h 0 (by simp)
      simpa [values_sum_cons] using this
    simp only [select_outputs_loop]
    rw [if_neg (Nat.not_le.mpr h0)]
    apply select_outputs_loop_nohit mv rest
    intro k hk
    rw [wrap_shift, ← values_sum_cons, ← List.take_succ_cons]
    exact h (k + 1) (by simpa using hk)

theorem select_outputs_loop_hit (mv : Nat) :
    ∀ (l : List output_info_type) (k accum : Nat)
      (pts : List output_point),
      k < l.length →
      mv ≤ (accum + values_sum (l.take (k + 1))) % 2 ^ 64 →
      (∀ j < k,
        (accum + values_sum (l.take (j + 1))) % 2 ^ 64 < mv) →
      select_outputs_loop mv accum pts l =
        ⟨pts ++ (l.take (k + 1)).map (fun o => o.point),
          (accum + values_sum (l.take (k + 1))) % 2 ^ 64 - mv⟩
  | [], k, accum, pts => by simp
  | o :: rest, 0, accum, pts => by
    intro _ hle _
    rw [List.take_succ_cons, List.take_zero] at hle ⊢
    simp only [values_sum_cons, values_sum_nil, Nat.add_zero] at hle ⊢
    simp only [select_outputs_loop]
    rw [if_pos hle]
    simp
  | o :: rest, k + 1, accum, pts => by
    intro hk hle hstrict
    have hlt : (accum + o.value) % 2 ^ 64 < mv := by
      have := hstrict 0 (Nat.succ_pos k)
      simpa [values_sum_cons] using this
    simp only [select_outputs_loop]
    rw [if_neg (Nat.not_le.mpr hlt)]
    rw [select_outputs_loop_hit mv rest k ((accum + o.value) % 2 ^ 64)
      (pts ++ [o.point]) (by simpa using hk)
      (by rw [wrap_shift, ← values_sum_cons, ← List.take_succ_cons]
          exact hle)
      (by intro j hj
          rw [wrap_shift, ← values_sum_cons, ← List.take_succ_cons]
          exact hstrict (j + 1) (by omega))]
    rw [List.take_succ_cons, values_sum_cons]
    simp [wrap_shift, Nat.add_assoc]

theorem select_outputs_greedy_min_greater (u : List output_info_type)
    (mv : Nat) (m : output_info_type) (hne : u ≠ [])
    (hm : min_element (u.filter (fun o => ! decide (o.value < mv))) =
      some m) :
    select_outputs_greedy u mv = ⟨[m.point], m.value - mv⟩ := by
  have hemp : u.isEmpty = false := by
    cases u with
    | nil => exact absurd rfl hne
    | cons a l => rfl
  simp only [select_outputs_greedy, hemp, Bool.false_eq_true, if_false,
    hm]

theorem select_outputs_greedy_all_lesser (u : List output_info_type)
    (mv : Nat) (hne : u ≠ []) (hall : ∀ o ∈ u, o.value < mv) :
    select_outputs_greedy u mv =
      select_outputs_loop mv 0 [] (List.insertionSort by_value_desc u) := by
  have hemp : u.isEmpty = false := by
    cases u with
    | nil => exact absurd rfl hne
    | cons a l => rfl
  have hg : u.filter (fun o => ! decide (o.value < mv)) = [] := by
    rw [List.filter_eq_nil_iff]
    intro a ha
    simp [hall a ha]
  have hl : u.filter (fun o => decide (o.value < mv)) = u := by
    rw [List.filter_eq_self]
    intro a ha
    simpa using hall a ha
  simp only [select_outputs_greedy, hemp, Bool.false_eq_true, if_false,
    hg, hl, min_element]

/-- Claim C4 (counterexample): target `2 ^ 64 - 1` with sub-target
candidates `2 ^ 64 - 2` and `2 ^ 64 - 3`: the mathematical running sum
reaches the target at the second candidate, so the claim demands both
points with change `2 ^ 64 - 4`; the code's `uint64_t` accumulator wraps
to `2 ^ 64 - 5`, never reaches the target, and the call fails with an
empty result. -/
theorem select_outputs_accum_wrap_cex_c4 :
    select_outputs
        [⟨⟨List.replicate 32 8, 0⟩, 2 ^ 64 - 2⟩,
          ⟨⟨List.replicate 32 9, 0⟩, 2 ^ 64 - 3⟩] (2 ^ 64 - 1)
        select_outputs_algorithm.greedy = some ⟨[], 0⟩ ∧
      (∀ o ∈ ([⟨⟨List.replicate 32 8, 0⟩, 2 ^ 64 - 2⟩,
          ⟨⟨List.replicate 32 9, 0⟩, 2 ^ 64 - 3⟩] :
            List output_info_type), o.value < 2 ^ 64 - 1) ∧
      2 ^ 64 - 1 ≤ values_sum
        [⟨⟨List.replicate 32 8, 0⟩, 2 ^ 64 - 2⟩,
          ⟨⟨List.replicate 32 9, 0⟩, 2 ^ 64 - 3⟩] ∧
      some (⟨[], 0⟩ : select_outputs_result) ≠
        some ⟨[⟨List.replicate 32 8, 0⟩, ⟨List.replicate 32 9, 0⟩],
          2 ^ 64 - 4⟩ := by
  refine ⟨?_, ?_, ?_, ?_⟩ <;> decide

/-- Claim C4 (amended): for a non-empty candidate list, if some candidate
covers the target then the result is the single point of a smallest
covering candidate with change its value minus the target; otherwise the
candidates (all below the target) are arranged in descending value order
and accumulated in that order into a `uint64_t` that wraps modulo
`2 ^ 64`, up to and including the first candidate at which the wrapped
running sum reaches the target, with change that wrapped sum minus the
target; if the wrapped sum never reaches the target the result is
empty. -/
theorem select_outputs_greedy_characterization_c4
    (u : List output_info_type) (mv : Nat) (hne : u ≠ []) :
    ((∃ o ∈ u, mv ≤ o.value) →
        ∃ m ∈ u, mv ≤ m.value ∧
          (∀ o ∈ u, mv ≤ o.value → m.value ≤ o.value) ∧
          select_outputs u mv select_outputs_algorithm.greedy =
            some ⟨[m.point], m.value - mv⟩) ∧
      ((∀ o ∈ u, o.value < mv) →
        ∃ sorted, List.Perm sorted u ∧
          List.Sorted by_value_desc sorted ∧
          (∀ k, k < sorted.length →
            mv ≤ values_sum (sorted.take (k + 1)) % 2 ^ 64 →
            (∀ j < k, values_sum (sorted.take (j + 1)) % 2 ^ 64 < mv) →
            select_outputs u mv select_outputs_algorithm.greedy =
              some ⟨(sorted.take (k + 1)).map (fun o => o.point),
                values_sum (sorted.take (k + 1)) % 2 ^ 64 - mv⟩) ∧
          ((∀ k < sorted.length,
              values_sum (sorted.take (k + 1)) % 2 ^ 64 < mv) →
            select_outputs u mv select_outputs_algorithm.greedy =
              some ⟨[], 0⟩)) := by
  have hsel : select_outputs u mv select_outputs_algorithm.greedy =
      some (select_outputs_greedy u mv) := by
    simp [select_outputs]
  constructor
  · rintro ⟨o0, ho0, hge⟩
    have ho0g : o0 ∈ u.filter (fun o => ! decide (o.value < mv)) :=
      List.mem_filter.mpr ⟨ho0, by simpa [Nat.not_lt] using hge⟩
    cases hmin :
        min_element (u.filter (fun o => ! decide (o.value < mv))) with
    | none =>
      exfalso
      rw [(min_element_eq_none _).mp hmin] at ho0g
      simp at ho0g
    | some m =>
      have hmemf := min_element_mem _ _ hmin
      have hmu : m ∈ u := (List.mem_filter.mp hmemf).1
      have hmge : mv ≤ m.value := by
        have := (List.mem_filter.mp hmemf).2
        simpa [Nat.not_lt] using this
      refine ⟨m, hmu, hmge, ?_, ?_⟩
      · intro o ho hoge
        exact min_element_le _ _ hmin o
          (List.mem_filter.mpr ⟨ho, by simpa [Nat.not_lt] using hoge⟩)
      · rw [hsel, select_outputs_greedy_min_greater u mv m hne hmin]
  · intro hall
    refine ⟨List.insertionSort by_value_desc u,
      List.perm_insertionSort _ _,
      List.sorted_insertionSort by_value_desc u, ?_, ?_⟩
    · intro k hk hle hstrict
      rw [hsel, select_outputs_greedy_all_lesser u mv hne hall]
      rw [select_outputs_loop_hit mv
        (List.insertionSort by_value_desc u) k 0 [] hk
        (by simpa using hle) (by intro j hj; simpa using hstrict j hj)]
      simp
    · intro hallk
      rw [hsel, select_outputs_greedy_all_lesser u mv hne hall]
      rw [select_outputs_loop_nohit mv
        (List.insertionSort by_value_desc u) 0 []
        (by intro k hk; simpa using hallk k hk)]

/-- Claim C4 (witness): a single candidate of value 150 against target
100 is selected alone with change 50. -/
theorem select_outputs_greedy_characterization_c4_witness :
    select_outputs [⟨⟨List.replicate 32 7, 0⟩, 150⟩] 100
      select_outputs_algorithm.greedy =
      some ⟨[⟨List.replicate 32 7, 0⟩], 50⟩ := by
  obtain ⟨m, hmem, hge, hmin, heq⟩ :=
    (select_outputs_greedy_characterization_c4
      [⟨⟨List.replicate 32 7, 0⟩, 150⟩] 100 (by decide)).1
      ⟨⟨⟨List.replicate 32 7, 0⟩, 150⟩, by decide, by decide⟩
  have hm : m = ⟨⟨List.replicate 32 7, 0⟩, 150⟩ := by
    simpa using hmem
  rw [hm] at heq
  exact heq

/-- Claim C5 (counterexample): two candidates of value `2 ^ 64 - 2`
against target `2 ^ 64 - 1`: the list is non-empty and the mathematical
sum of all candidates exceeds the target, yet the wrapped accumulator
never reaches it and the result has empty points, contradicting the
claimed equivalence. -/
theorem select_outputs_empty_sentinel_cex_c5 :
    select_outputs
        [⟨⟨List.replicate 32 4, 0⟩, 2 ^ 64 - 2⟩,
          ⟨⟨List.replicate 32 5, 0⟩, 2 ^ 64 - 2⟩] (2 ^ 64 - 1)
        select_outputs_algorithm.greedy = some ⟨[], 0⟩ ∧
      ([⟨⟨List.replicate 32 4, 0⟩, 2 ^ 64 - 2⟩,
          ⟨⟨List.replicate 32 5, 0⟩, 2 ^ 64 - 2⟩] :
            List output_info_type) ≠ [] ∧
      2 ^ 64 - 1 ≤ values_sum
        [⟨⟨List.replicate 32 4, 0⟩, 2 ^ 64 - 2⟩,
          ⟨⟨List.replicate 32 5, 0⟩, 2 ^ 64 - 2⟩] := by
  refine ⟨?_, ?_, ?_⟩ <;> decide

/-- Claim C5 (amended): provided the mathematical sum of all candidate
values fits in 64 bits (so the accumulator cannot wrap), the selection
never fails with an exception — the greedy call always returns a result —
and that result has empty points exactly when the candidate list is empty
or the total candidate value is strictly below the target. -/
theorem select_outputs_empty_iff_c5 (u : List output_info_type)
    (mv : Nat) (hS : values_sum u < 2 ^ 64) :
    select_outputs u mv select_outputs_algorithm.greedy =
        some (select_outputs_greedy u mv) ∧
      ((select_outputs_greedy u mv).points = [] ↔
        u = [] ∨ values_sum u < mv) := by
  refine ⟨by simp [select_outputs], ?_⟩
  by_cases hne : u = []
  · subst hne
    simp [select_outputs_greedy]
  by_cases hex : ∃ o ∈ u, mv ≤ o.value
  · obtain ⟨o0, ho0, hge⟩ := hex
    have ho0g : o0 ∈ u.filter (fun o => ! decide (o.value < mv)) :=
      List.mem_filter.mpr ⟨ho0, by simpa [Nat.not_lt] using hge⟩
    cases hmin :
        min_element (u.filter (fun o => ! decide (o.value < mv))) with
    | none =>
      exfalso
      rw [(min_element_eq_none _).mp hmin] at ho0g
      simp at ho0g
    | some m =>
      rw [select_outputs_greedy_min_greater u mv m hne hmin]
      have hmemf := min_element_mem _ _ hmin
      have hmu : m ∈ u := (List.mem_filter.mp hmemf).1
      have hmge : mv ≤ m.value := by
        have := (List.mem_filter.mp hmemf).2
        simpa [Nat.not_lt] using this
      have hsum : mv ≤ values_sum u :=
        Nat.le_trans hmge (mem_value_le_values_sum u m hmu)
      simp [hne, Nat.not_lt.mpr hsum]
  · push_neg at hex
    rw [select_outputs_greedy_all_lesser u mv hne hex]
    have hperm : List.Perm (List.insertionSort by_value_desc u) u :=
      List.perm_insertionSort _ _
    have hsum_eq : values_sum (List.insertionSort by_value_desc u) =
        values_sum u := values_sum_perm hperm
    have hslen : 1 ≤ (List.insertionSort by_value_desc u).length := by
      rw [List.length_insertionSort]
      cases u with
      | nil => exact absurd rfl hne
      | cons a l => simp
    by_cases hreach : mv ≤ values_sum u
    · have htail : mv ≤ values_sum
          ((List.insertionSort by_value_desc u).take
            ((List.insertionSort by_value_desc u).length - 1 + 1)) %
            2 ^ 64 := by
        rw [show (List.insertionSort by_value_desc u).length - 1 + 1 =
          (List.insertionSort by_value_desc u).length by omega]
        rw [List.take_length, hsum_eq, Nat.mod_eq_of_lt hS]
        exact hreach
      have hPex : ∃ k, mv ≤ values_sum
          ((List.insertionSort by_value_desc u).take (k + 1)) %
            2 ^ 64 := ⟨_, htail⟩
      have hk0spec := Nat.find_spec hPex
      have hk0min : ∀ j < Nat.find hPex,
          values_sum ((List.insertionSort by_value_desc u).take (j + 1)) %
            2 ^ 64 < mv :=
        fun j hj => Nat.not_le.mp (Nat.find_min hPex hj)
      have hk0lt : Nat.find hPex <
          (List.insertionSort by_value_desc u).length := by
        have := Nat.find_min' hPex htail
        omega
      rw [select_outputs_loop_hit mv (List.insertionSort by_value_desc u)
        (Nat.find hPex) 0 [] hk0lt (by simpa using hk0spec)
        (by intro j hj; simpa using hk0min j hj)]
      have hsne : List.insertionSort by_value_desc u ≠ [] := by
        intro hcon
        rw [hcon] at hslen
        simp at hslen
      simp [hsne, hne, Nat.not_lt.mpr hreach]
    · have hnlt : values_sum u < mv := Nat.not_le.mp hreach
      rw [select_outputs_loop_nohit mv
        (List.insertionSort by_value_desc u) 0 []
        (by
          intro k hk
          have h1 : values_sum
              ((List.insertionSort by_value_desc u).take (k + 1)) ≤
              values_sum u := by
            rw [← hsum_eq]
            exact values_sum_take_le _ (k + 1)
          rw [Nat.zero_add, Nat.mod_eq_of_lt (lt_of_le_of_lt h1 hS)]
          exact lt_of_le_of_lt h1 hnlt)]
      simp [hnlt]

/-- Claim C5 (witness): candidates of values 30 and 40 against target
100 sum to 70, below the target, so the result has empty points. -/
theorem select_outputs_empty_iff_c5_witness :
    (select_outputs_greedy
        [⟨⟨List.replicate 32 1, 0⟩, 30⟩, ⟨⟨List.replicate 32 2, 0⟩, 40⟩]
        100).points = [] :=
  (select_outputs_empty_iff_c5
      [⟨⟨List.replicate 32 1, 0⟩, 30⟩, ⟨⟨List.replicate 32 2, 0⟩, 40⟩]
      100 (by decide)).2.mpr (Or.inr (by decide))

end Libbitcoin
